import Mathlib

/-!
# Verification of the SHADERed `RenderEngine` core

A shallow embedding, in Lean 4, of the algorithms of
`src/Objects/RenderEngine.cpp`:

* the cache reconciliation `RenderEngine::m_cache` (debounce, addition,
  removal and reorder phases over the parallel arrays `m_items`,
  `m_shaders`, `m_debugShaders`, `m_shaderSources`), plus
  `RenderEngine::FlushCache`;
* the debug-render ID assignment of `RenderEngine::Render(…, isDebug)` and
  its decoder `RenderEngine::GetPipelineItemByID`;
* the shader preprocessor: `RenderEngine::m_applyMacros` (modelled at
  character level, including the `std::string::find_first_of` character-set
  semantics) and `RenderEngine::m_includeCheck` (modelled at line level);
* the failure handling shared by `Recompile`, `RecompileFromSource` and the
  caching path, and the render-loop skip of zero program handles;
* the picking subsystem: `Pick(item, add)`, `AddPickedItem` and the
  closest-hit update of `m_pickItem`.

GPU calls (`glCreateProgram`, `glCompileShader`, …) are modelled by a
fresh-handle counter; machine floats of the pick distance are modelled by
exact rationals; the `Timer::GetElapsedTime() > 0.5f` comparison is modelled
in milliseconds.  Every definition is computable, so concrete runs are
settled by `decide`/`rfl`.
-/

namespace Cache

/-- The `PipelineItem::ItemType` tags that `m_cache` dispatches on. -/
inductive ItemTy
  | shaderPass
  | computePass
  | audioPass
  | pluginItem
deriving DecidableEq

/-- A pipeline item as `m_cache` observes it.  `id` models the `Data`
pointer (the identity compared by `items[i]->Data == m_items[j]->Data`);
`pathsSet` models `strlen(VSPath) != 0 && strlen(PSPath) != 0` (resp.
`strlen(Path) != 0` for compute passes); `vsOk`, `psOk`, `gsOk` model each
stage's `gl::CheckShaderCompilationStatus` outcome; `gsActive` models
`GSUsed && strlen(GSEntry) > 0 && strlen(GSPath) > 0`. -/
structure PipelineItem where
  id : Nat
  ty : ItemTy
  pathsSet : Bool
  vsOk : Bool
  psOk : Bool
  gsOk : Bool
  gsActive : Bool
deriving DecidableEq

/-- The `ShaderPack` record: the cached `VS`/`PS`/`GS` shader object
handles (`m_shaderSources[i]`). -/
structure ShaderPack where
  VS : Nat
  PS : Nat
  GS : Nat
deriving DecidableEq

/-- The engine-owned cache: the parallel arrays `m_items`, `m_shaders`,
`m_debugShaders`, `m_shaderSources`, the key set of the `m_fbos` map, the
`m_fbosNeedUpdate` flag, and a counter from which fresh (nonzero, in use)
GL handles are drawn. -/
structure CacheState where
  items : List PipelineItem
  shaders : List Nat
  debugShaders : List Nat
  shaderSources : List ShaderPack
  fbos : List Nat
  fbosNeedUpdate : Bool
  next : Nat
deriving DecidableEq

/-- `std::vector::insert(begin() + n, a)`.  Positions `≤ length` behave as
in C++; a position past the end (undefined behaviour in C++) leaves the
list unchanged. -/
def vecInsert {α : Type} : Nat → α → List α → List α
  | 0, a, l => a :: l
  | _ + 1, _, [] => []
  | n + 1, a, x :: xs => x :: vecInsert n a xs

/-- `std::vector::erase(begin() + n)`; a position past the end (undefined
behaviour in C++) leaves the list unchanged. -/
def vecErase {α : Type} : Nat → List α → List α
  | _, [] => []
  | 0, _ :: xs => xs
  | n + 1, x :: xs => x :: vecErase n xs

/-- Draw a fresh GL handle (`glCreateShader`/`glCreateProgram`). -/
def alloc (st : CacheState) : Nat × CacheState :=
  (st.next, { st with next := st.next + 1 })

/-- One step of the addition scan of `m_cache` (RenderEngine.cpp:1695-1924)
at source position `i`: if the candidate's identity is absent from
`m_items`, insert a new shadow entry at `i` and compile it.  Returns the
new state and the number of `gl::CompileShader` calls made. -/
def cacheAdd1 (computeSupported : Bool) (st : CacheState) (i : Nat)
    (item : PipelineItem) : CacheState × Nat :=
  if st.items.any (fun c => c.id == item.id) then (st, 0)
  else
    match item.ty with
    | .shaderPass =>
      let st1 : CacheState :=
        { st with
          items := vecInsert i item st.items
          shaders := vecInsert i 0 st.shaders
          debugShaders := vecInsert i 0 st.debugShaders
          shaderSources := vecInsert i ⟨0, 0, 0⟩ st.shaderSources }
      if !item.pathsSet then (st1, 0)
      else
        let st2 : CacheState :=
          { st1 with fbos := if st1.fbos.contains item.id then st1.fbos else st1.fbos ++ [item.id] }
        let (vs, st3) := alloc st2
        let (ps, st4) := alloc st3
        let (gs, st5) := if item.gsActive then alloc st4 else (0, st4)
        let n := 2 + (if item.gsActive then 1 else 0)
        if item.vsOk && item.psOk && (!item.gsActive || item.gsOk) then
          let (prog, st6) := alloc st5
          let (dbgProg, st7) := alloc st6
          ({ st7 with
              shaders := st7.shaders.set i prog
              debugShaders := st7.debugShaders.set i dbgProg
              shaderSources := st7.shaderSources.set i ⟨vs, ps, gs⟩ }, n)
        else
          ({ st5 with
              shaders := st5.shaders.set i 0
              shaderSources := st5.shaderSources.set i ⟨vs, ps, gs⟩ }, n)
    | .computePass =>
      if computeSupported then
        -- the compute branch inserts into `m_items`, `m_shaders` and
        -- `m_shaderSources` only: `m_debugShaders` is left untouched
        let st1 : CacheState :=
          { st with
            items := vecInsert i item st.items
            shaders := vecInsert i 0 st.shaders
            shaderSources := vecInsert i ⟨0, 0, 0⟩ st.shaderSources }
        if !item.pathsSet then (st1, 0)
        else
          let (_, st2) := alloc st1
          if item.vsOk then
            let (prog, st3) := alloc st2
            ({ st3 with
                shaders := st3.shaders.set i prog
                shaderSources := st3.shaderSources.set i ⟨0, 0, 0⟩ }, 1)
          else
            ({ st2 with
                shaders := st2.shaders.set i 0
                shaderSources := st2.shaderSources.set i ⟨0, 0, 0⟩ }, 1)
      else (st, 0)
    | .audioPass =>
      ({ st with
          items := vecInsert i item st.items
          shaders := vecInsert i 0 st.shaders
          shaderSources := vecInsert i ⟨0, 0, 0⟩ st.shaderSources }, 1)
    | .pluginItem =>
      ({ st with
          items := vecInsert i item st.items
          shaders := vecInsert i 0 st.shaders
          shaderSources := vecInsert i ⟨0, 0, 0⟩ st.shaderSources }, 0)

/-- The addition scan: `for (i = 0; i < items.size(); i++) …`. -/
def cacheAddGo (computeSupported : Bool) :
    CacheState → Nat → List PipelineItem → CacheState × Nat
  | st, _, [] => (st, 0)
  | st, i, x :: rest =>
    let (st1, n1) := cacheAdd1 computeSupported st i x
    let (st2, n2) := cacheAddGo computeSupported st1 (i + 1) rest
    (st2, n1 + n2)

/-- The removal scan of `m_cache` (RenderEngine.cpp:1927-1949); as in the
source, the index advances even after an erase, and the loop bound
`m_items.size()` is re-read each iteration (modelled with a fuel that
dominates every possible iteration count). -/
def cacheRemoveGo (items : List PipelineItem) :
    CacheState → Nat → Nat → CacheState
  | st, _, 0 => st
  | st, i, fuel + 1 =>
    if h : i < st.items.length then
      let cur := st.items.get ⟨i, h⟩
      if items.any (fun x => x.id == cur.id) then
        cacheRemoveGo items st (i + 1) fuel
      else
        let st' : CacheState :=
          { st with
            items := vecErase i st.items
            shaders := vecErase i st.shaders
            debugShaders := vecErase i st.debugShaders
            shaderSources := vecErase i st.shaderSources
            fbos := if cur.ty = .shaderPass then st.fbos.filter (fun k => k ≠ cur.id) else st.fbos }
        cacheRemoveGo items st' (i + 1) fuel
    else st

def cacheRemove (items : List PipelineItem) (st : CacheState) : CacheState :=
  cacheRemoveGo items st 0 st.items.length

/-- Junk value read by an out-of-bounds `m_items[i]` (C++ UB regime). -/
def junkItem : PipelineItem := ⟨0, .shaderPass, false, false, false, false, false⟩

/-- The array surgery of the reorder phase: erase position `i` from all
four parallel arrays and re-insert at `dest`; `m_items` receives the
source pointer `items[j]`, the other arrays receive copies taken at `i`
before the erase (RenderEngine.cpp:1961-1976). -/
def moveAll (st : CacheState) (i dest : Nat) (x : PipelineItem) : CacheState :=
  let s := st.shaders.getD i 0
  let d := st.debugShaders.getD i 0
  let p := st.shaderSources.getD i ⟨0, 0, 0⟩
  { st with
    items := vecInsert dest x (vecErase i st.items)
    shaders := vecInsert dest s (vecErase i st.shaders)
    debugShaders := vecInsert dest d (vecErase i st.debugShaders)
    shaderSources := vecInsert dest p (vecErase i st.shaderSources) }

/-- The inner scan of the reorder phase (RenderEngine.cpp:1956-1978): scan
`items` for the identity currently at shadow position `i`; note that the
source has no `break` after a successful move, so the scan continues
against the new occupant of position `i`. -/
def reorderScan (items : List PipelineItem) (i : Nat) :
    CacheState → Nat → Nat → CacheState
  | st, _, 0 => st
  | st, j, fuel + 1 =>
    if hj : j < items.length then
      let itj := items.get ⟨j, hj⟩
      if (st.items.getD i junkItem).id == itj.id then
        let dest := if j > i then j - 1 else j
        reorderScan items i (moveAll st i dest itj) (j + 1) fuel
      else reorderScan items i st (j + 1) fuel
    else st

/-- The outer loop of the reorder phase (RenderEngine.cpp:1952-1980). -/
def reorderGo (items : List PipelineItem) :
    CacheState → Nat → Nat → CacheState
  | st, _, 0 => st
  | st, i, fuel + 1 =>
    if h : i < st.items.length then
      let st' :=
        if (items.getD i junkItem).id == (st.items.get ⟨i, h⟩).id then st
        else reorderScan items i st 0 items.length
      reorderGo items st' (i + 1) fuel
    else st

def reorder (items : List PipelineItem) (st : CacheState) : CacheState :=
  reorderGo items st 0 st.items.length

/-- The three scans of `m_cache` after the debounce check, in source
order: additions, removals, reorders.  Returns the reconciled state and
the total number of `gl::CompileShader` calls. -/
def cachePhases (computeSupported : Bool) (st : CacheState)
    (items : List PipelineItem) : CacheState × Nat :=
  let (st1, n) := cacheAddGo computeSupported st 0 items
  let st2 := cacheRemove items st1
  let st3 := reorder items st2
  (st3, n)

/-- Result of one `m_cache` call: the new state, the number of compile
calls, and whether `m_cacheTimer.Restart()` ran. -/
structure CacheResult where
  state : CacheState
  compiles : Nat
  timerRestarted : Bool
deriving DecidableEq

/-- `RenderEngine::m_cache` (RenderEngine.cpp:1680-1981).  `elapsedMs`
models `m_cacheTimer.GetElapsedTime()` in milliseconds; the source
compares against `0.5f` seconds. -/
def mCache (computeSupported : Bool) (st : CacheState)
    (items : List PipelineItem) (elapsedMs : Nat) : CacheResult :=
  if st.items.length = items.length then
    if elapsedMs > 500 then
      let (s, n) := cachePhases computeSupported st items
      ⟨s, n, true⟩
    else ⟨st, 0, false⟩
  else
    let (s, n) := cachePhases computeSupported st items
    ⟨s, n, false⟩

/-- `RenderEngine::FlushCache` (RenderEngine.cpp:1655-1679): clears
`m_fbos`, `m_fboCount`, `m_items`, `m_shaders`, `m_shaderSources` and sets
`m_fbosNeedUpdate`.  Exactly as in the source, `m_debugShaders` is *not*
cleared and the debug programs are not deleted. -/
def flushCache (st : CacheState) : CacheState :=
  { st with
    items := []
    shaders := []
    shaderSources := []
    fbos := []
    fbosNeedUpdate := true }

end Cache

namespace Render

/-- The child-item types a shader pass dispatches on inside the render
loop (Geometry / Model / RenderState / PluginItem). -/
inductive ChildTy
  | geometry
  | model
  | renderState
  | plugin
deriving DecidableEq

/-- The fields of `pipe::ShaderPass` that drive the render-loop skip tests
and the debug-ID traversal. -/
structure PassData where
  active : Bool
  gsUsed : Bool
  rtCount : Nat
  children : List ChildTy
deriving DecidableEq

/-- A cached top-level item as the render loop sees it, with the aligned
`m_shaders[i]` handle stored alongside. -/
inductive Item
  | shaderPass (d : PassData) (shader : Nat)
  | computePass (shader : Nat)
  | audioPass
  | plugin
deriving DecidableEq

/-- Only Geometry and Model children receive debug IDs and draw calls
(RenderEngine.cpp:281, 1643). -/
def pickableChild : ChildTy → Bool
  | .geometry => true
  | .model => true
  | _ => false

def countPickable (l : List ChildTy) : Nat := (l.filter pickableChild).length

/-- The pass-level skip of `Render` (RenderEngine.cpp:172 together with
the `m_shaders[i] == 0` skip at line 181). -/
def renderSkip (isDebug : Bool) (d : PassData) (shader : Nat) : Bool :=
  !d.active || d.children.length == 0 || d.rtCount == 0 || (isDebug && d.gsUsed) || shader == 0

/-- The pass-level skip of `GetPipelineItemByID` (RenderEngine.cpp:1635);
unlike the debug render it does not test `GSUsed`. -/
def decodeSkip (d : PassData) (shader : Nat) : Bool :=
  !d.active || d.children.length == 0 || d.rtCount == 0 || shader == 0

/-- `#define DEBUG_ID_START 1` (RenderEngine.cpp:59). -/
def DEBUG_ID_START : Nat := 1

/-- The per-child ID assignment inside one pass during a debug render
(RenderEngine.cpp:287-293): child index paired with the `debugID` written
for it; the counter advances only on Geometry/Model children. -/
def childIDs : Nat → Nat → List ChildTy → List (Nat × Nat)
  | _, _, [] => []
  | j, n, c :: rest =>
    if pickableChild c then (j, n) :: childIDs (j + 1) (n + 1) rest
    else childIDs (j + 1) n rest

/-- The debug-render traversal of `Render(…, isDebug = true)`
(RenderEngine.cpp:162-293): every Geometry/Model child of every
non-skipped shader pass is assigned the next sequential `debugID`.
Produces `((passIdx, childIdx), id)` triples. -/
def renderIDsGo : Nat → Nat → List Item → List ((Nat × Nat) × Nat)
  | _, _, [] => []
  | i, n, .shaderPass d s :: rest =>
    if renderSkip true d s then renderIDsGo (i + 1) n rest
    else
      (childIDs 0 n d.children).map (fun p => ((i, p.1), p.2))
        ++ renderIDsGo (i + 1) (n + countPickable d.children) rest
  | i, n, .computePass _ :: rest => renderIDsGo (i + 1) n rest
  | i, n, .audioPass :: rest => renderIDsGo (i + 1) n rest
  | i, n, .plugin :: rest => renderIDsGo (i + 1) n rest

def renderDebugIDs (pipe : List Item) : List ((Nat × Nat) × Nat) :=
  renderIDsGo 0 DEBUG_ID_START pipe

/-- The inner scan of `GetPipelineItemByID` (RenderEngine.cpp:1639-1649). -/
def decodeChildren : Nat → Nat → List ChildTy → Nat → Option Nat
  | _, _, [], _ => none
  | j, n, c :: rest, id =>
    if pickableChild c then
      if n == id then some j else decodeChildren (j + 1) (n + 1) rest id
    else decodeChildren (j + 1) n rest id

/-- The outer scan of `GetPipelineItemByID` (RenderEngine.cpp:1626-1654):
replay the traversal with the same counter and return the
`(passIdx, childIdx)` pair whose replayed ID matches. -/
def decodeGo : Nat → Nat → List Item → Nat → Option (Nat × Nat)
  | _, _, [], _ => none
  | i, n, .shaderPass d s :: rest, id =>
    if decodeSkip d s then decodeGo (i + 1) n rest id
    else
      match decodeChildren 0 n d.children id with
      | some j => some (i, j)
      | none => decodeGo (i + 1) (n + countPickable d.children) rest id
  | i, n, .computePass _ :: rest, id => decodeGo (i + 1) n rest id
  | i, n, .audioPass :: rest, id => decodeGo (i + 1) n rest id
  | i, n, .plugin :: rest, id => decodeGo (i + 1) n rest id

def GetPipelineItemByID (pipe : List Item) (id : Nat) : Option (Nat × Nat) :=
  decodeGo 0 DEBUG_ID_START pipe id

/-- The three 8-bit colour channels written for a debug ID, low byte
first (RenderEngine.cpp:288-290). -/
def encodeID (id : Nat) : Nat × Nat × Nat :=
  (id % 256, id / 256 % 256, id / 65536 % 256)

/-- Reassembly of an ID from the read-back channels
(RenderEngine.cpp:591). -/
def decodeID (c : Nat × Nat × Nat) : Nat :=
  c.1 + 256 * c.2.1 + 65536 * c.2.2

/-- The Geometry/Model draw calls issued by one pass: `(passIdx, childIdx)`
pairs (RenderEngine.cpp:296-328). -/
def passDraws (i : Nat) : Nat → List ChildTy → List (Nat × Nat)
  | _, [] => []
  | j, c :: rest =>
    if pickableChild c then (i, j) :: passDraws i (j + 1) rest
    else passDraws i (j + 1) rest

/-- The draw calls of one whole render (debug or not): passes failing the
skip tests issue none. -/
def renderDraws (isDebug : Bool) : Nat → List Item → List (Nat × Nat)
  | _, [] => []
  | i, .shaderPass d s :: rest =>
    (if renderSkip isDebug d s then [] else passDraws i 0 d.children)
      ++ renderDraws isDebug (i + 1) rest
  | i, .computePass _ :: rest => renderDraws isDebug (i + 1) rest
  | i, .audioPass :: rest => renderDraws isDebug (i + 1) rest
  | i, .plugin :: rest => renderDraws isDebug (i + 1) rest

end Render

namespace Recompile

/-- Outcome of recompiling one shader pass. -/
structure Result where
  prog : Nat
  destroyed : List Nat
deriving DecidableEq

/-- The shared failure handling of `Recompile` (RenderEngine.cpp:1169-1185),
`RecompileFromSource` (RenderEngine.cpp:1353-1368) and the caching path
(RenderEngine.cpp:1799-1821): the previous program, if any, is
`glDeleteProgram`ed, and the handle becomes a fresh linked program when
every attempted stage compiled, the sentinel `0` otherwise. -/
def recompilePass (prev fresh : Nat) (vsOk psOk gsOk : Bool) : Result :=
  { prog := if vsOk && psOk && gsOk then fresh else 0
    destroyed := if prev ≠ 0 then [prev] else [] }

end Recompile

namespace Macros

/-- One entry of `pass->Macros`. -/
structure MacroDef where
  active : Bool
  name : String
  value : String
deriving DecidableEq

/-- The characters of the literal `"#version"`: `find_first_of` with a
string argument searches for any single character of that set, not for
the substring. -/
def versionChars : List Char := ['#', 'v', 'e', 'r', 's', 'i', 'o', 'n']

/-- `std::string::find_first_of("#version")`: position of the first
character belonging to the set. -/
def findFirstOfSet (s : List Char) (set : List Char) : Option Nat :=
  s.findIdx? (fun c => set.contains c)

/-- `std::string::find_first_of('\n', k)`: position of the first `'\n'`
at or after `k`. -/
def findCharFrom (s : List Char) (c : Char) (k : Nat) : Option Nat :=
  ((s.drop k).findIdx? (fun x => x == c)).map (fun j => k + j)

/-- The `"#define " + name + " " + value + "\n"` line built per macro. -/
def macroLine (m : MacroDef) : List Char :=
  ("#define " ++ m.name ++ " " ++ m.value ++ "\n").toList

/-- The `strMacro` accumulation loop (RenderEngine.cpp:2002-2008):
inactive macros are skipped, active ones appended in list order. -/
def macroStr (ms : List MacroDef) : List Char :=
  ms.foldl (fun acc m => if m.active then acc ++ macroLine m else acc) []

/-- `RenderEngine::m_applyMacros` (RenderEngine.cpp:1996-2012).
`verLoc = src.find_first_of("#version")` finds the first character of the
set, `lineLoc = src.find_first_of('\n', verLoc + 1) + 1` the position
after the following newline (`npos + 1` wraps to `0` on `size_t`), and
`src.insert(lineLoc, strMacro)` splices the macro block there when it is
nonempty. -/
def applyMacros (src : List Char) (ms : List MacroDef) : List Char :=
  let searchFrom :=
    match findFirstOfSet src versionChars with
    | some v => v + 1
    | none => 0
  let lineLoc :=
    match findCharFrom src '\n' searchFrom with
    | some p => p + 1
    | none => 0
  let s := macroStr ms
  if s.length > 0 then src.take lineLoc ++ s ++ src.drop lineLoc else src

end Macros

namespace Includes

/-- A line of shader source, newline-terminated by convention: either
plain text or a line-initial `#include` directive with the name between
the quote characters.  (`#include` occurrences that do not begin a line
are skipped by `m_includeCheck` and count as text.) -/
inductive SrcLine
  | txt (s : String)
  | inc (name : String)
deriving DecidableEq

/-- The project file system behind `ProjectParser::FileExists` /
`LoadProjectFile`: resolved path to content. -/
structure FS where
  files : List (String × List SrcLine)
deriving DecidableEq

def FS.lookup (fs : FS) (p : String) : Option (List SrcLine) :=
  (fs.files.find? (fun q => decide (q.1 = p))).map (fun q => q.2)

/-- The path concatenation of RenderEngine.cpp:2070-2076: append `'/'`
unless the directory's last character is already a separator. -/
def joinPath (dir name : String) : String :=
  match dir.toList.getLast? with
  | some '/' => dir ++ name
  | some '\\' => dir ++ name
  | _ => dir ++ "/" ++ name

/-- `std::count(incFileSrc.begin(), incFileSrc.end(), '\n')` under the
every-line-newline-terminated convention. -/
def nlCount (content : List SrcLine) : Nat := content.length

/-- The candidate-path loop for one directive (RenderEngine.cpp:2070-2095):
for each include path in order, build `ipath`; if `ipath` is already on
the include stack, emit one "Recursive #include detected" diagnostic (and
keep scanning); expand the first candidate that exists and is not on the
stack.  Returns the winning `(ipath, content)` if any, plus the number of
diagnostics emitted. -/
def resolve (fs : FS) (stack : List String) (name : String) :
    List String → Nat → Option (String × List SrcLine) × Nat
  | [], d => (none, d)
  | p :: ps, d =>
    let ipath := joinPath p name
    let d' := d + (if stack.any (fun q => decide (q = ipath)) then 1 else 0)
    match fs.lookup ipath with
    | some content =>
      if !stack.any (fun q => decide (q = ipath)) then (some (ipath, content), d')
      else resolve fs stack name ps d'
    | none => resolve fs stack name ps d'

/-- The directive scan of one `m_includeCheck` invocation
(RenderEngine.cpp:2055-2098), parametrised by the expander `deeper` used
for the recursive `m_includeCheck(incFileSrc, includeStack, lineBias)`
call.  The directive text is always erased (leaving an empty line); on
expansion the included file's already-expanded text is spliced in front of
it, the include stack (a by-value copy in the source) grows for the rest
of this invocation, and `lineBias` is *assigned* the included file's
newline count before the recursive call, which may assign it again.
Returns (output lines, diagnostics emitted, final `lineBias`). -/
def expandLines (fs : FS) (paths : List String)
    (deeper : List String → List SrcLine → Nat → List SrcLine × Nat × Nat) :
    List String → List SrcLine → Nat → List SrcLine × Nat × Nat
  | _, [], bias => ([], 0, bias)
  | stack, .txt s :: rest, bias =>
    let r := expandLines fs paths deeper stack rest bias
    (.txt s :: r.1, r.2)
  | stack, .inc name :: rest, bias =>
    match resolve fs stack name paths 0 with
    | (none, d0) =>
      let r := expandLines fs paths deeper stack rest bias
      (.txt "" :: r.1, d0 + r.2.1, r.2.2)
    | (some (ipath, content), d0) =>
      let stack' := stack ++ [ipath]
      let e := deeper stack' content (nlCount content)
      let r := expandLines fs paths deeper stack' rest e.2.2
      (e.1 ++ .txt "" :: r.1, d0 + e.2.1 + r.2.1, r.2.2)

/-- The recursion of `m_includeCheck`, staged by expansion depth.  Each
expansion pushes onto the stack a path that exists and was not yet on the
stack, so a depth of `#files` suffices; the depth-0 fallback for the
expansion case is unreachable from a sufficient depth
(`expandDepth_stable` below). -/
def expandDepth (fs : FS) (paths : List String) :
    Nat → List String → List SrcLine → Nat → List SrcLine × Nat × Nat
  | 0 => expandLines fs paths (fun _ content bias => (content, 0, bias))
  | d + 1 => expandLines fs paths (expandDepth fs paths d)

/-- The distinct file paths known to the project. -/
def pathsOf (fs : FS) : List String := (fs.files.map Prod.fst).dedup

/-- Number of known files not yet on the include stack: the quantity each
recursive expansion strictly decreases. -/
def measureOf (fs : FS) (stack : List String) : Nat :=
  ((pathsOf fs).filter (fun p => !stack.any (fun q => decide (q = p)))).length

/-- `RenderEngine::m_includeCheck(src, {}, lineBias)` with `lineBias`
starting at `0` (RenderEngine.cpp:2047-2099). -/
def m_includeCheck (fs : FS) (paths : List String) (src : List SrcLine) :
    List SrcLine × Nat × Nat :=
  expandDepth fs paths (pathsOf fs).length [] src 0

/-- Number of unexpanded `#include` directives remaining in a source. -/
def countInc (l : List SrcLine) : Nat :=
  (l.filter (fun x => match x with | .inc _ => true | _ => false)).length

end Includes

namespace Pick

/-- The selection list holds `PipelineItem*` values; `none` models the
null pointer. -/
abbrev Sel := Option Nat

/-- `RenderEngine::Pick(PipelineItem* item, bool add)`
(RenderEngine.cpp:1450-1474): if the item is already selected, single-pick
collapses the list to it and multi-pick leaves the list alone; otherwise a
null item clears, multi-pick appends, single-pick replaces. -/
def pick (l : List Sel) (item : Sel) (add : Bool) : List Sel :=
  if l.contains item then
    if add then l else [item]
  else if item = none then []
  else if add then l ++ [item]
  else [item]

/-- `RenderEngine::AddPickedItem(PipelineItem* pipe, bool multiPick)`
(RenderEngine.cpp:1600-1625); its body is the same scan-then-update as
`Pick(item, add)`. -/
def addPickedItem (l : List Sel) (item : Sel) (multiPick : Bool) : List Sel :=
  if l.contains item then
    if multiPick then l else [item]
  else if item = none then []
  else if multiPick then l ++ [item]
  else [item]

/-- An item tested by `m_pickItem`, with the shape-specific hit distance
abstracted.  Modelled from the spec: the shape tests themselves
(`ray::IntersectBox`, `ray::IntersectTriangle`, `glm::intersectRaySphere`
from `Engine/Ray.h`, outside this slice of the repository) are represented
by the distance they report; `none` models "no hit" (`myDist` keeps
`std::numeric_limits<float>::infinity()`). -/
structure PickItem where
  id : Nat
  hit : Option ℚ
deriving DecidableEq

/-- `myDist < m_pickDist` on floats with `none` as infinity. -/
def distLT : Option ℚ → Option ℚ → Bool
  | none, _ => false
  | some _, none => true
  | some a, some b => decide (a < b)

/-- The pick-session state: `m_pickDist` (`none` = infinity, the value set
by `Pick(x, y, …)`) and `m_pick`. -/
structure PickState where
  pickDist : Option ℚ
  picks : List Sel
deriving DecidableEq

/-- The closest-hit update at the end of `RenderEngine::m_pickItem`
(RenderEngine.cpp:1594-1598): the tested item replaces the current result
only when strictly closer. -/
def m_pickItem (st : PickState) (it : PickItem) (multiPick : Bool) : PickState :=
  if distLT it.hit st.pickDist then
    { pickDist := it.hit, picks := addPickedItem st.picks (some it.id) multiPick }
  else st

/-- The per-frame pick resolution: `m_pickItem` runs once per pickable
item, in traversal order, starting from the state `Pick(x, y, …)` set up
(`m_pickDist = ∞`, selection cleared for a fresh single pick). -/
def pickPhase (multiPick : Bool) (items : List PickItem) : PickState :=
  items.foldl (fun st it => m_pickItem st it multiPick) ⟨none, []⟩

end Pick

/-! ### Concrete instances used to evaluate the model -/

namespace Cache

/-- A healthy shader pass with identity `k`. -/
def exPass (k : Nat) : PipelineItem := ⟨k, .shaderPass, true, true, true, true, false⟩

/-- A shadow list fully reconciled against `[exPass 0, …, exPass 3]`, with
distinct nonzero program handles. -/
def exShadow : CacheState :=
  { items := [exPass 0, exPass 1, exPass 2, exPass 3]
    shaders := [11, 12, 13, 14]
    debugShaders := [21, 22, 23, 24]
    shaderSources := [⟨1, 2, 3⟩, ⟨4, 5, 6⟩, ⟨7, 8, 9⟩, ⟨10, 11, 12⟩]
    fbos := [0, 1, 2, 3]
    fbosNeedUpdate := false
    next := 50 }

/-- The same four passes in reversed order. -/
def exReversed : List PipelineItem := [exPass 3, exPass 2, exPass 1, exPass 0]

/-- A single cached shader pass whose debug program handle is `41`. -/
def exFlushItem : PipelineItem := ⟨7, .shaderPass, true, true, true, true, false⟩

/-- Engine state holding `exFlushItem` fully compiled. -/
def exFlushState : CacheState :=
  { items := [exFlushItem]
    shaders := [40]
    debugShaders := [41]
    shaderSources := [⟨31, 32, 33⟩]
    fbos := [7]
    fbosNeedUpdate := false
    next := 100 }

/-- An empty engine cache. -/
def emptyState : CacheState := ⟨[], [], [], [], [], false, 1⟩

/-- A shader pass whose vertex stage fails to compile. -/
def exBadItem : PipelineItem := ⟨9, .shaderPass, true, false, true, true, false⟩

end Cache

namespace Render

/-- A three-item pipeline: two active GS-free shader passes around an
audio pass; pickable children at pass 0 (indices 0 and 2) and pass 2
(index 0). -/
def exPipe : List Item :=
  [.shaderPass ⟨true, false, 1, [.geometry, .renderState, .model]⟩ 9,
   .audioPass,
   .shaderPass ⟨true, false, 1, [.model]⟩ 8]

end Render

namespace Macros

/-- A GLSL source whose `#version` directive sits on the second line; the
`'o'` of the leading comment is the first character of the search set
`"#version"`. -/
def exSrcComment : List Char := "//o\n#version 330\nvoid main()\x7b\x7d".toList

/-- The shader source named by the specification's determinism property. -/
def exSrcPlain : List Char := "#version 330\nvoid main()\x7b\x7d".toList

def exMacro : MacroDef := ⟨true, "A", "1"⟩

/-- The macro block as the specification words it: one `#define` line per
active macro, inactive macros skipped, in macro-list order.  (Spec-side
reformulation, to be compared with `macroStr` from the source.) -/
def specMacroBlock (ms : List MacroDef) : List Char :=
  (ms.filter (fun m => m.active)).foldr (fun m acc => macroLine m ++ acc) []

end Macros

namespace Includes

/-- File `A.glsl`: one comment line, then `#include "B.glsl"`. -/
def contentA : List SrcLine := [.txt "// A", .inc "B.glsl"]

/-- File `B.glsl`: one comment line, then `#include "A.glsl"`. -/
def contentB : List SrcLine := [.txt "// B", .inc "A.glsl"]

/-- A project with the cyclic pair `A.glsl` ⇄ `B.glsl`, resolved against
the including file's own directory (`"."`). -/
def fsAB : FS := ⟨[("./A.glsl", contentA), ("./B.glsl", contentB)]⟩

def txtOnly (ls : List String) : List SrcLine := ls.map .txt

/-- A project with two include-free files of the given line counts. -/
def biasFS (l₁ l₂ : List String) : FS :=
  ⟨[("./i1.glsl", txtOnly l₁), ("./i2.glsl", txtOnly l₂)]⟩

/-- A source splicing both files of `biasFS`, in order. -/
def biasSrc : List SrcLine := [.inc "i1.glsl", .inc "i2.glsl"]

/-- The `biasFS` instance with a two-line and a one-line file. -/
def exBiasFS : FS := biasFS ["l1", "l2"] ["m1"]

end Includes

/-! ## Theorems -/

/-! ### C5: the reconciliation debounce -/

/-- **C5**: if `m_cache` runs while the candidate list's size equals the
shadow list's size and the timer has not exceeded the 0.5-second interval,
it performs zero addition/removal/reorder/compile work and leaves the
engine state unchanged; once the timer exceeds the interval it is
restarted and the three reconciliation phases run. -/
theorem mCache_debounce (cs : Bool) (st : Cache.CacheState)
    (items : List Cache.PipelineItem) (ms : Nat)
    (hlen : st.items.length = items.length) :
    (ms ≤ 500 → Cache.mCache cs st items ms = ⟨st, 0, false⟩) ∧
    (500 < ms → Cache.mCache cs st items ms =
      ⟨(Cache.cachePhases cs st items).1, (Cache.cachePhases cs st items).2, true⟩) := by
  constructor
  · intro h
    simp [Cache.mCache, hlen, Nat.not_lt.mpr h]
  · intro h
    rcases hp : Cache.cachePhases cs st items with ⟨s, n⟩
    simp [Cache.mCache, hlen, h, hp]

/-- Witness for `mCache_debounce` at a concrete engine state. -/
theorem mCache_debounce_witness :
    Cache.mCache true Cache.exFlushState [Cache.exFlushItem] 400 =
      ⟨Cache.exFlushState, 0, false⟩ :=
  (mCache_debounce true Cache.exFlushState [Cache.exFlushItem] 400 (by decide)).1
    (by decide)

/-! ### C3: `FlushCache` and the next reconciliation -/

/-- **C3** fails on the code: `FlushCache` clears `m_items`, `m_shaders`,
`m_shaderSources`, `m_fbos` and forces an FBO rebuild, but it neither
deletes the debug programs nor clears `m_debugShaders`; after the next
render's reconciliation the stale debug-program handle `41` is still held
in the engine-owned `m_debugShaders` list (behind the fresh handle `103`),
contradicting the claim that no stale GPU handle remains in any
engine-owned cache list. -/
theorem flushCache_leaves_stale_debug_program :
    (Cache.mCache true (Cache.flushCache Cache.exFlushState) [Cache.exFlushItem] 0).state.debugShaders
      = [103, 41] ∧
    41 ∈ (Cache.mCache true (Cache.flushCache Cache.exFlushState) [Cache.exFlushItem] 0).state.debugShaders ∧
    (Cache.flushCache Cache.exFlushState).items = [] ∧
    (Cache.flushCache Cache.exFlushState).fbosNeedUpdate = true := by
  refine ⟨by decide, by decide, by decide, by decide⟩

/-! ### C1: reconciliation between permutations -/

/-- **C1** fails on the code as stated: reconciling the shadow list
`[0, 1, 2, 3]` against the reversed source list `[3, 2, 1, 0]` (timer
expired, so the phases run) leaves the shadow order `[3, 1, 2, 0]`, which
does not match the source order — the reorder phase's
`erase at i / insert at (j > i ? j-1 : j)` surgery under-shoots for this
permutation. -/
theorem mCache_reorder_counterexample :
    (Cache.mCache true Cache.exShadow Cache.exReversed 600).state.items.map (fun x => x.id)
      = [3, 1, 2, 0] ∧
    (Cache.mCache true Cache.exShadow Cache.exReversed 600).state.items.map (fun x => x.id)
      ≠ Cache.exReversed.map (fun x => x.id) := by
  refine ⟨by decide, by decide⟩

/-! ### C6: macro injection -/

/-- **C6** fails on the code as stated: `m_applyMacros` locates the
injection point with `find_first_of("#version")`, which matches the first
character of the *set* `{#,v,e,r,s,i,o,n}`, not the substring `#version`.
For a source whose first line is the comment `//o`, the macro block lands
after the comment line, before the `#version` directive — not immediately
after the `#version` line's newline as claimed. -/
theorem applyMacros_find_first_of_counterexample :
    Macros.applyMacros Macros.exSrcComment [Macros.exMacro]
      = "//o\n#define A 1\n#version 330\nvoid main()\x7b\x7d".toList ∧
    Macros.applyMacros Macros.exSrcComment [Macros.exMacro]
      ≠ "//o\n#version 330\n#define A 1\nvoid main()\x7b\x7d".toList := by
  refine ⟨by decide, by decide⟩

/-! ### C9: closest-hit selection -/

/-- `AddPickedItem` in single-pick mode always collapses the selection to
the picked item. -/
theorem addPickedItem_single (l : List Pick.Sel) (x : Nat) :
    Pick.addPickedItem l (some x) false = [some x] := by
  unfold Pick.addPickedItem
  by_cases h : l.contains (some x) <;> simp [h]

/-- **C9**: a tested item replaces the pick result only when its hit
distance is strictly smaller than the current minimum; of two items at
different distances the nearer is selected in either test order, and at
equal distances the first item tested wins. -/
theorem pickItem_closest_hit (a b : Pick.PickItem) (da db : ℚ)
    (ha : a.hit = some da) (hb : b.hit = some db) :
    (da < db →
      (Pick.pickPhase false [a, b]).picks = [some a.id] ∧
      (Pick.pickPhase false [b, a]).picks = [some a.id]) ∧
    (da = db → (Pick.pickPhase false [a, b]).picks = [some a.id]) := by
  have hstep : ∀ (st : Pick.PickState) (it : Pick.PickItem),
      Pick.m_pickItem st it false =
        if Pick.distLT it.hit st.pickDist then
          ⟨it.hit, Pick.addPickedItem st.picks (some it.id) false⟩
        else st := fun st it => rfl
  constructor
  · intro hlt
    constructor
    · simp only [Pick.pickPhase, List.foldl, hstep, ha, hb, Pick.distLT,
        addPickedItem_single]
      simp [decide_eq_true_eq, not_lt.mpr (le_of_lt hlt), hlt]
    · simp only [Pick.pickPhase, List.foldl, hstep, ha, hb, Pick.distLT,
        addPickedItem_single]
      simp [hlt]
  · intro heq
    simp only [Pick.pickPhase, List.foldl, hstep, ha, hb, Pick.distLT,
      addPickedItem_single]
    simp [heq]

/-- Witness for `pickItem_closest_hit`: boxes at distances 1 and 2. -/
theorem pickItem_closest_hit_witness :
    (Pick.pickPhase false [⟨5, some 1⟩, ⟨6, some 2⟩]).picks = [some 5] ∧
    (Pick.pickPhase false [⟨6, some 2⟩, ⟨5, some 1⟩]).picks = [some 5] :=
  (pickItem_closest_hit ⟨5, some 1⟩ ⟨6, some 2⟩ 1 2 rfl rfl).1 one_lt_two

/-! ### C10: distinctness of the selection list -/

/-- **C10**: both `Pick(item, add)` and `AddPickedItem` scan the selection
for existing membership first, so they preserve distinctness of the
list's entries, and re-adding an already selected item in multi-pick mode
leaves the list unchanged. -/
theorem pick_list_nodup (l : List Pick.Sel) (item : Pick.Sel) (add : Bool)
    (h : l.Nodup) :
    (Pick.pick l item add).Nodup ∧ (Pick.addPickedItem l item add).Nodup ∧
    (item ∈ l → add = true → Pick.pick l item add = l) := by
  have happ : item ∉ l → (l ++ [item]).Nodup := fun hnm =>
    h.append (List.nodup_singleton item)
      (fun a hal hai => by rw [List.mem_singleton] at hai; exact hnm (hai ▸ hal))
  refine ⟨?_, ?_, ?_⟩
  · by_cases hmem : item ∈ l
    · by_cases ha : add <;> simp [Pick.pick, hmem, ha, h]
    · by_cases hn : item = none
      · subst hn; simp [Pick.pick, hmem]
      · by_cases ha : add <;> simp [Pick.pick, hmem, hn, ha, h, happ hmem]
  · by_cases hmem : item ∈ l
    · by_cases ha : add <;> simp [Pick.addPickedItem, hmem, ha, h]
    · by_cases hn : item = none
      · subst hn; simp [Pick.addPickedItem, hmem]
      · by_cases ha : add <;>
          simp [Pick.addPickedItem, hmem, hn, ha, h, happ hmem]
  · intro hm ha
    simp [Pick.pick, hm, ha]

/-- Witness for `pick_list_nodup`: re-adding `some 3` to `[some 3]` in
multi-pick mode. -/
theorem pick_list_nodup_witness :
    (Pick.pick [some 3] (some 3) true).Nodup ∧
    (Pick.addPickedItem [some 3] (some 3) true).Nodup ∧
    (some 3 ∈ [(some 3 : Pick.Sel)] → true = true →
      Pick.pick [some 3] (some 3) true = [some 3]) :=
  pick_list_nodup [some 3] (some 3) true (by decide)

/-! ### C7: the line-bias counter -/

/-- **C7** fails on the code as stated: `m_includeCheck` *assigns*
`lineBias = std::count(incFileSrc, '\n')` for each splice instead of
accumulating, so after expanding a two-line file and then a one-line file
the bias is 1, not the claimed total 3. -/
theorem includeCheck_bias_counterexample :
    (Includes.m_includeCheck Includes.exBiasFS ["."] Includes.biasSrc).2.2 = 1 ∧
    (Includes.m_includeCheck Includes.exBiasFS ["."] Includes.biasSrc).2.2 ≠ 2 + 1 := by
  refine ⟨by decide, by decide⟩

/-! ### C6 (amended): where the macro block actually lands -/

/-- The `strMacro` foldl accumulates exactly the specification-side block:
one `#define` line per active macro, in macro-list order. -/
theorem macroStr_eq_specMacroBlock (ms : List Macros.MacroDef) :
    Macros.macroStr ms = Macros.specMacroBlock ms := by
  have key : ∀ (ms : List Macros.MacroDef) (acc : List Char),
      ms.foldl (fun acc m => if m.active then acc ++ Macros.macroLine m else acc) acc
        = acc ++ Macros.specMacroBlock ms := by
    intro ms
    induction ms with
    | nil => intro acc; simp [Macros.specMacroBlock]
    | cons m rest ih =>
      intro acc
      by_cases hm : m.active
      · simp [List.foldl, hm, ih, Macros.specMacroBlock, List.filter_cons]
      · simp [List.foldl, hm, ih, Macros.specMacroBlock, List.filter_cons]
  simpa using key ms []

/-- The index of the `'\n'` that ends a newline-free prefix. -/
theorem findIdx_newline (l₀ rest : List Char) (h : '\n' ∉ l₀) :
    List.findIdx? (fun x => x == '\n') (l₀ ++ '\n' :: rest) = some l₀.length := by
  induction l₀ with
  | nil => simp [List.findIdx?_cons]
  | cons c t ih =>
    have hc : (c == '\n') = false := by
      simp only [List.mem_cons, not_or] at h
      simp only [beq_eq_false_iff_ne, ne_eq]
      exact fun hh => h.1 hh.symm
    have ht : '\n' ∉ t := fun hm => h (List.mem_cons_of_mem c hm)
    simp [List.findIdx?_cons, hc, ih ht]

/-- **C6 (amended)**: `m_applyMacros` splices the macro block immediately
after the newline that follows the first occurrence of any character of
the set `"#version"`; when the directive's `'#'` is the source's first
such character — in particular when the source begins with `#version` —
this is immediately after the version line, one `#define NAME VALUE` line
per active macro, inactive macros skipped, in macro-list order. -/
theorem applyMacros_after_first_line (l₀ rest : List Char)
    (ms : List Macros.MacroDef) (h : '\n' ∉ l₀) :
    Macros.applyMacros ('#' :: l₀ ++ '\n' :: rest) ms
      = '#' :: l₀ ++ '\n' :: (Macros.specMacroBlock ms ++ rest) := by
  have h1 : Macros.findFirstOfSet ('#' :: l₀ ++ '\n' :: rest) Macros.versionChars
      = some 0 := by
    simp [Macros.findFirstOfSet, List.findIdx?_cons, Macros.versionChars]
  have h2 : Macros.findCharFrom ('#' :: l₀ ++ '\n' :: rest) '\n' 1
      = some (1 + l₀.length) := by
    have hd : List.drop 1 ('#' :: l₀ ++ '\n' :: rest) = l₀ ++ '\n' :: rest := rfl
    simp only [Macros.findCharFrom, hd, findIdx_newline l₀ rest h]
    rfl
  rw [Macros.applyMacros, h1, h2, macroStr_eq_specMacroBlock]
  by_cases hb : Macros.specMacroBlock ms = []
  · simp [hb]
  · have hlen : 0 < (Macros.specMacroBlock ms).length := List.length_pos.mpr hb
    simp only [hlen, if_pos]
    have htake : ('#' :: l₀ ++ '\n' :: rest).take (1 + l₀.length + 1)
        = '#' :: l₀ ++ ['\n'] := by
      have : 1 + l₀.length + 1 = l₀.length + 2 := by omega
      rw [this]
      simp only [List.cons_append, List.take_succ_cons]
      have h2' : l₀.length + 1 = l₀.length + 1 := rfl
      rw [show l₀.length + 1 = l₀.length + 1 from rfl]
      rw [List.take_append]
      simp
    have hdrop : ('#' :: l₀ ++ '\n' :: rest).drop (1 + l₀.length + 1) = rest := by
      have : 1 + l₀.length + 1 = l₀.length + 2 := by omega
      rw [this]
      simp only [List.cons_append, List.drop_succ_cons]
      rw [List.drop_append]
      simp
    rw [htake, hdrop]
    simp

/-! ### C8: compile failure degrades the pass to the "no program" state -/

/-- Every draw recorded by `passDraws i` carries pass index `i`. -/
theorem passDraws_idx (l : List Render.ChildTy) :
    ∀ (i j0 i' j : Nat), (i', j) ∈ Render.passDraws i j0 l → i' = i := by
  induction l with
  | nil => intro i j0 i' j hm; simp [Render.passDraws] at hm
  | cons c rest ih =>
    intro i j0 i' j hm
    by_cases hp : Render.pickableChild c
    · rw [Render.passDraws, if_pos hp] at hm
      rcases List.mem_cons.mp hm with he | ht
      · exact (Prod.mk.injEq _ _ _ _ ▸ he).1
      · exact ih i (j0 + 1) i' j ht
    · rw [Render.passDraws, if_neg hp] at hm
      exact ih i (j0 + 1) i' j hm

/-- Every draw of a render comes from a pass that survived the skip
tests: its index points at a shader pass for which `renderSkip` is
false. -/
theorem renderDraws_spec (dbg : Bool) (pipe : List Render.Item) :
    ∀ (k i j : Nat), (i, j) ∈ Render.renderDraws dbg k pipe →
      k ≤ i ∧ ∃ d s, pipe[i - k]? = some (.shaderPass d s) ∧
        Render.renderSkip dbg d s = false := by
  induction pipe with
  | nil => intro k i j hm; simp [Render.renderDraws] at hm
  | cons x rest ih =>
    intro k i j hm
    match x with
    | .shaderPass d s =>
      rw [Render.renderDraws] at hm
      rcases List.mem_append.mp hm with hl | hr
      · by_cases hskip : Render.renderSkip dbg d s
        · rw [if_pos hskip] at hl; simp at hl
        · rw [if_neg hskip] at hl
          have hei : i = k := passDraws_idx d.children k 0 i j hl
          subst hei
          refine ⟨Nat.le_refl i, d, s, ?_, Bool.not_eq_true _ ▸ hskip⟩
          simp
      · obtain ⟨hk, d', s', hget, hsk⟩ := ih (k + 1) i j hr
        refine ⟨Nat.le_of_succ_le hk, d', s', ?_, hsk⟩
        have : i - k = (i - (k + 1)) + 1 := by omega
        rw [this]
        simpa using hget
    | .computePass s =>
      rw [Render.renderDraws] at hm
      obtain ⟨hk, d', s', hget, hsk⟩ := ih (k + 1) i j hm
      refine ⟨Nat.le_of_succ_le hk, d', s', ?_, hsk⟩
      have : i - k = (i - (k + 1)) + 1 := by omega
      rw [this]
      simpa using hget
    | .audioPass =>
      rw [Render.renderDraws] at hm
      obtain ⟨hk, d', s', hget, hsk⟩ := ih (k + 1) i j hm
      refine ⟨Nat.le_of_succ_le hk, d', s', ?_, hsk⟩
      have : i - k = (i - (k + 1)) + 1 := by omega
      rw [this]
      simpa using hget
    | .plugin =>
      rw [Render.renderDraws] at hm
      obtain ⟨hk, d', s', hget, hsk⟩ := ih (k + 1) i j hm
      refine ⟨Nat.le_of_succ_le hk, d', s', ?_, hsk⟩
      have : i - k = (i - (k + 1)) + 1 := by omega
      rw [this]
      simpa using hget

/-- `vecInsert` at a position within bounds grows the length by one. -/
theorem vecInsert_length {α : Type} (a : α) :
    ∀ (i : Nat) (l : List α), i ≤ l.length →
      (Cache.vecInsert i a l).length = l.length + 1 := by
  intro i
  induction i with
  | zero => intro l _; rfl
  | succ n ih =>
    intro l hl
    match l with
    | [] => simp at hl
    | x :: xs =>
      have : n ≤ xs.length := by simpa using hl
      simp [Cache.vecInsert, ih xs this]

/-- Reading back position `i` after the failure branch's
`vecInsert`-then-`set` surgery yields the written sentinel. -/
theorem getD_set_vecInsert (l : List Nat) (i : Nat) (hi : i ≤ l.length) (x : Nat) :
    ((Cache.vecInsert i 0 l).set i x).getD i 0 = x := by
  have hlen : i < (Cache.vecInsert i 0 l).length := by
    rw [vecInsert_length 0 i l hi]; omega
  rw [List.getD_eq_getElem _ _ (by simpa using hlen)]
  simp [List.getElem_set_self]

/-- **C8**: whenever a stage of a pass fails to compile — in `Recompile`,
`RecompileFromSource` (first conjunct, shared failure handling) or during
initial caching (second conjunct) — the previous program is destroyed and
the pass's program handle becomes the sentinel `0`; every render skips a
pass whose handle is `0` (it issues no draw) while the pass keeps its
pipeline slot (third conjunct). -/
theorem compile_failure_degrades :
    (∀ (prev fresh : Nat) (vsOk psOk gsOk : Bool), (vsOk && psOk && gsOk) = false →
        (Recompile.recompilePass prev fresh vsOk psOk gsOk).prog = 0 ∧
        (prev ≠ 0 → prev ∈ (Recompile.recompilePass prev fresh vsOk psOk gsOk).destroyed)) ∧
    (∀ (cs : Bool) (st : Cache.CacheState) (i : Nat) (item : Cache.PipelineItem),
        item.ty = .shaderPass → item.pathsSet = true →
        (item.vsOk && item.psOk && (!item.gsActive || item.gsOk)) = false →
        st.items.any (fun c => c.id == item.id) = false →
        i ≤ st.shaders.length →
        (Cache.cacheAdd1 cs st i item).1.shaders.getD i 0 = 0) ∧
    (∀ (dbg : Bool) (pre post : List Render.Item) (d : Render.PassData) (j : Nat),
        (pre.length, j) ∉ Render.renderDraws dbg 0 (pre ++ .shaderPass d 0 :: post) ∧
        (pre ++ .shaderPass d 0 :: post)[pre.length]? = some (.shaderPass d 0)) := by
  refine ⟨?_, ?_, ?_⟩
  · intro prev fresh vsOk psOk gsOk hfail
    refine ⟨by simp [Recompile.recompilePass, hfail], fun hp => ?_⟩
    simp [Recompile.recompilePass, hp]
  · intro cs st i item hty hpaths hfail hfound hi
    obtain ⟨iid, ity, ipaths, ivs, ips, igs, igsa⟩ := item
    simp only at hty hpaths hfail
    subst hty
    subst hpaths
    rw [Cache.cacheAdd1, if_neg (by simp [hfound])]
    cases ivs <;> cases ips <;> cases igs <;> cases igsa <;>
      first
      | exact absurd hfail (by decide)
      | exact getD_set_vecInsert st.shaders i hi 0
  · intro dbg pre post d j
    constructor
    · intro hm
      obtain ⟨-, d', s', hget, hskip⟩ := renderDraws_spec dbg _ 0 pre.length j hm
      rw [Nat.sub_zero, List.getElem?_append_right (Nat.le_refl _), Nat.sub_self] at hget
      simp only [List.getElem?_cons_zero, Option.some.injEq, Render.Item.shaderPass.injEq] at hget
      rw [← hget.1, ← hget.2, Render.renderSkip] at hskip
      simp at hskip
    · rw [List.getElem?_append_right (Nat.le_refl _), Nat.sub_self]
      simp

/-- Witness for `compile_failure_degrades` at concrete inputs. -/
theorem compile_failure_degrades_witness :
    (Recompile.recompilePass 5 6 false true true).prog = 0 ∧
    5 ∈ (Recompile.recompilePass 5 6 false true true).destroyed ∧
    (Cache.cacheAdd1 true Cache.emptyState 0 Cache.exBadItem).1.shaders.getD 0 0 = 0 ∧
    (0, 0) ∉ Render.renderDraws false 0 [.shaderPass ⟨true, false, 1, [.geometry]⟩ 0] :=
  ⟨(compile_failure_degrades.1 5 6 false true true (by decide)).1,
   (compile_failure_degrades.1 5 6 false true true (by decide)).2 (by decide),
   compile_failure_degrades.2.1 true Cache.emptyState 0 Cache.exBadItem (by decide)
     (by decide) (by decide) (by decide) (by decide),
   (compile_failure_degrades.2.2 false [] [] ⟨true, false, 1, [.geometry]⟩ 0).1⟩

/-- Witness for `applyMacros_after_first_line` on the specification's
input, with an inactive macro in the middle of the list. -/
theorem applyMacros_after_first_line_witness :
    Macros.applyMacros Macros.exSrcPlain
      [⟨true, "A", "1"⟩, ⟨false, "B", "2"⟩, ⟨true, "C", "3"⟩]
      = "#version 330\n#define A 1\n#define C 3\nvoid main()\x7b\x7d".toList := by
  have h := applyMacros_after_first_line ("version 330".toList)
      ("void main()\x7b\x7d".toList)
      [⟨true, "A", "1"⟩, ⟨false, "B", "2"⟩, ⟨true, "C", "3"⟩] (by decide)
  have e : Macros.exSrcPlain
      = '#' :: "version 330".toList ++ '\n' :: "void main()\x7b\x7d".toList := by decide
  rw [e, h]
  decide



/-! ### C2: ID-buffer decode inverts the debug-render ID assignment -/

/-- `countPickable` over a cons. -/
theorem countPickable_cons (c : Render.ChildTy) (rest : List Render.ChildTy) :
    Render.countPickable (c :: rest)
      = (if Render.pickableChild c then 1 else 0) + Render.countPickable rest := by
  by_cases hp : Render.pickableChild c <;>
    (simp [Render.countPickable, List.filter_cons, hp]; try omega)

/-- IDs assigned inside one pass lie in `[n, n + countPickable)`. -/
theorem childIDs_bounds (l : List Render.ChildTy) :
    ∀ (j n jj m : Nat), (jj, m) ∈ Render.childIDs j n l →
      n ≤ m ∧ m < n + Render.countPickable l := by
  induction l with
  | nil => intro j n jj m hm; simp [Render.childIDs] at hm
  | cons c rest ih =>
    intro j n jj m hm
    rw [countPickable_cons]
    by_cases hp : Render.pickableChild c
    · rw [Render.childIDs, if_pos hp] at hm
      rcases List.mem_cons.mp hm with he | ht
      · obtain ⟨-, rfl⟩ := Prod.mk.injEq _ _ _ _ ▸ he
        simp only [hp, if_true]
        omega
      · have := ih (j + 1) (n + 1) jj m ht
        simp only [hp, if_true]
        omega
    · rw [Render.childIDs, if_neg hp] at hm
      have := ih (j + 1) n jj m hm
      simp only [hp, if_false]
      omega

/-- Replaying the child scan finds exactly the child that was assigned the
ID. -/
theorem decodeChildren_found (l : List Render.ChildTy) :
    ∀ (j n jj m : Nat), (jj, m) ∈ Render.childIDs j n l →
      Render.decodeChildren j n l m = some jj := by
  induction l with
  | nil => intro j n jj m hm; simp [Render.childIDs] at hm
  | cons c rest ih =>
    intro j n jj m hm
    by_cases hp : Render.pickableChild c
    · rw [Render.childIDs, if_pos hp] at hm
      rw [Render.decodeChildren, if_pos hp]
      rcases List.mem_cons.mp hm with he | ht
      · obtain ⟨rfl, rfl⟩ := Prod.mk.injEq _ _ _ _ ▸ he
        simp
      · have hb := (childIDs_bounds rest (j + 1) (n + 1) jj m ht).1
        have hne : (n == m) = false := by simp; omega
        rw [hne]
        simp only [Bool.false_eq_true, if_false]
        exact ih (j + 1) (n + 1) jj m ht
    · rw [Render.childIDs, if_neg hp] at hm
      rw [Render.decodeChildren, if_neg hp]
      exact ih (j + 1) n jj m hm

/-- The child scan rejects every ID at or beyond the pass's ID range. -/
theorem decodeChildren_none (l : List Render.ChildTy) :
    ∀ (j n m : Nat), n + Render.countPickable l ≤ m →
      Render.decodeChildren j n l m = none := by
  induction l with
  | nil => intro j n m _; rfl
  | cons c rest ih =>
    intro j n m hm
    rw [countPickable_cons] at hm
    by_cases hp : Render.pickableChild c
    · rw [Render.decodeChildren, if_pos hp]
      rw [if_pos hp] at hm
      have hne : (n == m) = false := by simp; omega
      rw [hne]
      simp only [Bool.false_eq_true, if_false]
      exact ih (j + 1) (n + 1) m (by omega)
    · rw [Render.decodeChildren, if_neg hp]
      rw [if_neg hp] at hm
      exact ih (j + 1) n m (by omega)

/-- Every ID assigned from counter `n` onward is at least `n`. -/
theorem renderIDsGo_lb (pipe : List Render.Item) :
    ∀ (i n i0 j0 m : Nat), ((i0, j0), m) ∈ Render.renderIDsGo i n pipe → n ≤ m := by
  induction pipe with
  | nil => intro i n i0 j0 m hm; simp [Render.renderIDsGo] at hm
  | cons x rest ih =>
    intro i n i0 j0 m hm
    match x with
    | .shaderPass d s =>
      rw [Render.renderIDsGo] at hm
      by_cases hskip : Render.renderSkip true d s
      · rw [if_pos hskip] at hm
        exact ih (i + 1) n i0 j0 m hm
      · rw [if_neg hskip] at hm
        rcases List.mem_append.mp hm with hl | hr
        · obtain ⟨p, hp, he⟩ := List.mem_map.mp hl
          have hb := (childIDs_bounds d.children 0 n p.1 p.2 (by exact hp)).1
          have hme : p.2 = m := by simpa using congrArg Prod.snd he
          omega
        · have := ih (i + 1) (n + Render.countPickable d.children) i0 j0 m hr
          omega
    | .computePass s =>
      rw [Render.renderIDsGo] at hm
      exact ih (i + 1) n i0 j0 m hm
    | .audioPass =>
      rw [Render.renderIDsGo] at hm
      exact ih (i + 1) n i0 j0 m hm
    | .plugin =>
      rw [Render.renderIDsGo] at hm
      exact ih (i + 1) n i0 j0 m hm

/-- When no traversed active pass uses the geometry stage, the debug
render's skip test coincides with the decoder's. -/
theorem renderSkip_eq_decodeSkip (d : Render.PassData) (s : Nat)
    (hgs : d.active = true → d.gsUsed = false) :
    Render.renderSkip true d s = Render.decodeSkip d s := by
  cases hact : d.active
  · simp [Render.renderSkip, Render.decodeSkip, hact]
  · have hgu : d.gsUsed = false := hgs hact
    simp [Render.renderSkip, Render.decodeSkip, hact, hgu]

/-- Replaying the traversal decodes every assigned ID back to its item. -/
theorem decodeGo_renderIDsGo (pipe : List Render.Item)
    (hgs : ∀ d s, Render.Item.shaderPass d s ∈ pipe → d.active = true → d.gsUsed = false) :
    ∀ (i n i0 j0 m : Nat), ((i0, j0), m) ∈ Render.renderIDsGo i n pipe →
      Render.decodeGo i n pipe m = some (i0, j0) := by
  induction pipe with
  | nil => intro i n i0 j0 m hm; simp [Render.renderIDsGo] at hm
  | cons x rest ih =>
    have hgsRest : ∀ d s, Render.Item.shaderPass d s ∈ rest →
        d.active = true → d.gsUsed = false :=
      fun d s hmem => hgs d s (List.mem_cons_of_mem x hmem)
    intro i n i0 j0 m hm
    match x with
    | .shaderPass d s =>
      have hgsHead : d.active = true → d.gsUsed = false :=
        hgs d s (List.mem_cons_self _ _)
      have hse := renderSkip_eq_decodeSkip d s hgsHead
      rw [Render.renderIDsGo] at hm
      rw [Render.decodeGo]
      by_cases hskip : Render.decodeSkip d s
      · rw [if_pos hskip]
        rw [if_pos (hse.trans (by simp [hskip]) : Render.renderSkip true d s = true)] at hm
        exact ih hgsRest (i + 1) n i0 j0 m hm
      · rw [if_neg hskip]
        rw [hse] at hm
        rw [if_neg hskip] at hm
        rcases List.mem_append.mp hm with hl | hr
        · obtain ⟨p, hp, he⟩ := List.mem_map.mp hl
          obtain ⟨he1, rfl⟩ := Prod.mk.injEq _ _ _ _ ▸ he
          obtain ⟨rfl, rfl⟩ := Prod.mk.injEq _ _ _ _ ▸ he1
          rw [decodeChildren_found d.children 0 n p.1 p.2 hp]
        · have hlb := renderIDsGo_lb rest (i + 1) (n + Render.countPickable d.children)
            i0 j0 m hr
          rw [decodeChildren_none d.children 0 n m hlb]
          exact ih hgsRest (i + 1) (n + Render.countPickable d.children) i0 j0 m hr
    | .computePass s =>
      rw [Render.renderIDsGo] at hm
      rw [Render.decodeGo]
      exact ih hgsRest (i + 1) n i0 j0 m hm
    | .audioPass =>
      rw [Render.renderIDsGo] at hm
      rw [Render.decodeGo]
      exact ih hgsRest (i + 1) n i0 j0 m hm
    | .plugin =>
      rw [Render.renderIDsGo] at hm
      rw [Render.decodeGo]
      exact ih hgsRest (i + 1) n i0 j0 m hm

/-- **C2**: for every pickable Geometry/Model item drawn during a debug
render of a pipeline whose active passes do not use the geometry stage,
decoding the sequential ID written for it (assigned from the reserved
base `DEBUG_ID_START = 1`, so never the background value 0) by replaying
the traversal yields exactly that item and its owning pass; and the
three-channel low-byte-first encoding is lossless below `2^24`. -/
theorem renderIDs_decode_left_inverse (pipe : List Render.Item)
    (hgs : ∀ d s, Render.Item.shaderPass d s ∈ pipe → d.active = true → d.gsUsed = false) :
    (∀ i0 j0 m, ((i0, j0), m) ∈ Render.renderDebugIDs pipe →
        Render.GetPipelineItemByID pipe m = some (i0, j0) ∧ 1 ≤ m) ∧
    (∀ m, m < 16777216 → Render.decodeID (Render.encodeID m) = m) := by
  constructor
  · intro i0 j0 m hm
    exact ⟨decodeGo_renderIDsGo pipe hgs 0 1 i0 j0 m hm,
      renderIDsGo_lb pipe 0 1 i0 j0 m hm⟩
  · intro m hm
    simp only [Render.encodeID, Render.decodeID]
    omega

/-- Witness for `renderIDs_decode_left_inverse`: the third assigned ID in
`exPipe` decodes to pass 2, child 0. -/
theorem renderIDs_decode_left_inverse_witness :
    Render.GetPipelineItemByID Render.exPipe 3 = some (2, 0) ∧ 1 ≤ 3 :=
  (renderIDs_decode_left_inverse Render.exPipe
    (by
      intro d s hm
      simp only [Render.exPipe, List.mem_cons, List.not_mem_nil, or_false] at hm
      rcases hm with h | h | h <;> first
        | (cases h; decide)
        | cases h)).1 2 0 3 (by decide)

/-! ### C7 (amended): the bias equals the last spliced file's line count -/

/-- Expansion leaves include-free sources (and the incoming bias)
untouched. -/
theorem expandLines_txtOnly (fs : Includes.FS) (paths : List String)
    (deeper : List String → List Includes.SrcLine → Nat →
      List Includes.SrcLine × Nat × Nat) (stack : List String) :
    ∀ (ls : List String) (bias : Nat),
      Includes.expandLines fs paths deeper stack (Includes.txtOnly ls) bias
        = (Includes.txtOnly ls, 0, bias) := by
  intro ls
  induction ls with
  | nil => intro bias; rfl
  | cons x rest ih =>
    intro bias
    show Includes.expandLines fs paths deeper stack (.txt x :: Includes.txtOnly rest) bias
      = (.txt x :: Includes.txtOnly rest, 0, bias)
    rw [Includes.expandLines, ih bias]

/-- The length of an include-free source. -/
theorem txtOnly_length (ls : List String) :
    (Includes.txtOnly ls).length = ls.length := by
  simp [Includes.txtOnly]

/-- **C7 (amended)**: expanding a source that splices two include-free
files leaves the line-bias counter equal to the newline count of the last
file loaded — each splice assigns (rather than accumulates) the bias. -/
theorem includeCheck_bias_last_file (l₁ l₂ : List String) :
    (Includes.m_includeCheck (Includes.biasFS l₁ l₂) ["."] Includes.biasSrc).2.2
      = l₂.length := by
  have h1 : Includes.resolve (Includes.biasFS l₁ l₂) [] "i1.glsl" ["."] 0
      = (some ("./i1.glsl", Includes.txtOnly l₁), 0) := rfl
  have h2 : Includes.resolve (Includes.biasFS l₁ l₂) ["./i1.glsl"] "i2.glsl" ["."] 0
      = (some ("./i2.glsl", Includes.txtOnly l₂), 0) := rfl
  have hp : (Includes.pathsOf (Includes.biasFS l₁ l₂)).length = 2 := rfl
  rw [Includes.m_includeCheck, hp]
  simp only [Includes.biasSrc, Includes.expandDepth, Includes.expandLines,
    List.nil_append, h1, h2, expandLines_txtOnly, Includes.nlCount, txtOnly_length]

/-! ### C1 (amended): reconciliation between permutations -/


/-- `vecInsert` within bounds is a permutation of consing. -/
theorem vecInsert_perm {α : Type} (a : α) :
    ∀ (i : Nat) (l : List α), i ≤ l.length →
      (Cache.vecInsert i a l).Perm (a :: l) := by
  intro i
  induction i with
  | zero => intro l _; exact List.Perm.refl _
  | succ n ih =>
    intro l hl
    match l with
    | [] => simp at hl
    | x :: xs =>
      have hx : n ≤ xs.length := by simpa using hl
      have h1 : (Cache.vecInsert (n + 1) a (x :: xs)).Perm (x :: a :: xs) :=
        List.Perm.cons x (ih xs hx)
      exact h1.trans (List.Perm.swap a x xs)

/-- Erasing position `i` and re-consing the erased element is a
permutation of the original. -/
theorem cons_get_vecErase_perm {α : Type} :
    ∀ (l : List α) (i : Nat) (h : i < l.length),
      (l.get ⟨i, h⟩ :: Cache.vecErase i l).Perm l := by
  intro l
  induction l with
  | nil => intro i h; simp at h
  | cons x xs ih =>
    intro i h
    match i with
    | 0 => exact List.Perm.refl _
    | n + 1 =>
      have hn : n < xs.length := by simpa using h
      have h1 : ((x :: xs).get ⟨n + 1, h⟩ :: Cache.vecErase (n + 1) (x :: xs)).Perm
          (x :: xs.get ⟨n, hn⟩ :: Cache.vecErase n xs) := List.Perm.swap _ _ _
      exact h1.trans (List.Perm.cons x (ih n hn))

/-- `vecErase` commutes with `zip` on equal-length lists. -/
theorem vecErase_zip {α β : Type} :
    ∀ (a : List α) (b : List β) (i : Nat), a.length = b.length →
      (Cache.vecErase i a).zip (Cache.vecErase i b) = Cache.vecErase i (a.zip b) := by
  intro a
  induction a with
  | nil => intro b i h; simp [Cache.vecErase]
  | cons x xs ih =>
    intro b i h
    match b with
    | [] => simp at h
    | y :: ys =>
      have h' : xs.length = ys.length := by simpa using h
      match i with
      | 0 => rfl
      | n + 1 =>
        show (x :: Cache.vecErase n xs).zip (y :: Cache.vecErase n ys)
          = (x, y) :: Cache.vecErase n (xs.zip ys)
        rw [List.zip_cons_cons, ih ys n h']

/-- `vecInsert` commutes with `zip` on equal-length lists. -/
theorem vecInsert_zip {α β : Type} :
    ∀ (a : List α) (b : List β) (i : Nat) (x : α) (y : β),
      a.length = b.length → i ≤ a.length →
      (Cache.vecInsert i x a).zip (Cache.vecInsert i y b)
        = Cache.vecInsert i (x, y) (a.zip b) := by
  intro a
  induction a with
  | nil =>
    intro b i x y h hi
    match b with
    | [] =>
      match i with
      | 0 => rfl
      | n + 1 => simp at hi
    | _ :: _ => simp at h
  | cons u us ih =>
    intro b i x y h hi
    match b with
    | [] => simp at h
    | v :: vs =>
      have h' : us.length = vs.length := by simpa using h
      match i with
      | 0 => rfl
      | n + 1 =>
        have hi' : n ≤ us.length := by simpa using hi
        show (u :: Cache.vecInsert n x us).zip (v :: Cache.vecInsert n y vs)
          = (u, v) :: Cache.vecInsert n (x, y) (us.zip vs)
        rw [List.zip_cons_cons, ih vs n x y h' hi']

/-- Length after a within-bounds `vecErase`. -/
theorem vecErase_length {α : Type} :
    ∀ (l : List α) (i : Nat), i < l.length →
      (Cache.vecErase i l).length = l.length - 1 := by
  intro l
  induction l with
  | nil => intro i h; simp at h
  | cons x xs ih =>
    intro i h
    match i with
    | 0 => simp [Cache.vecErase]
    | n + 1 =>
      have hn : n < xs.length := by simpa using h
      have := ih n hn
      simp only [Cache.vecErase, List.length_cons, this]
      omega

/-- The `moveAll` surgery of the reorder phase preserves the item
multiset, the item–handle pairing and the lengths, provided the moved
identity matches (which, under distinct source ids, forces the inserted
source item to equal the erased shadow item). -/
theorem moveAll_inv (st : Cache.CacheState) (src : List Cache.PipelineItem)
    (i j dest : Nat)
    (hlen : st.shaders.length = st.items.length)
    (hperm : st.items.Perm src)
    (hnodup : (src.map (fun x => x.id)).Nodup)
    (hi : i < st.items.length) (hj : j < src.length)
    (hid : (st.items.getD i Cache.junkItem).id = (src.get ⟨j, hj⟩).id)
    (hdest : dest = if j > i then j - 1 else j) :
    (Cache.moveAll st i dest (src.get ⟨j, hj⟩)).items.Perm st.items ∧
    (Cache.moveAll st i dest (src.get ⟨j, hj⟩)).shaders.length
      = (Cache.moveAll st i dest (src.get ⟨j, hj⟩)).items.length ∧
    (Cache.moveAll st i dest (src.get ⟨j, hj⟩)).items.length = st.items.length ∧
    ((Cache.moveAll st i dest (src.get ⟨j, hj⟩)).items.zip
        (Cache.moveAll st i dest (src.get ⟨j, hj⟩)).shaders).Perm
      (st.items.zip st.shaders) := by
  have hlensrc : st.items.length = src.length := hperm.length_eq
  have hi' : i < st.shaders.length := by omega
  have hgetD : st.items.getD i Cache.junkItem = st.items.get ⟨i, hi⟩ := by
    rw [List.getD_eq_getElem _ _ hi]; rfl
  have hx : src.get ⟨j, hj⟩ = st.items.get ⟨i, hi⟩ := by
    have hmem1 : src.get ⟨j, hj⟩ ∈ src := List.get_mem src j hj
    have hmem2 : st.items.get ⟨i, hi⟩ ∈ src :=
      hperm.subset (List.get_mem st.items i hi)
    exact List.inj_on_of_nodup_map hnodup hmem1 hmem2 (by rw [← hgetD, hid])
  have hdle : dest ≤ st.items.length - 1 := by
    by_cases hji : j > i <;> simp [hdest, hji] <;> omega
  have heleni : (Cache.vecErase i st.items).length = st.items.length - 1 :=
    vecErase_length st.items i hi
  have helens : (Cache.vecErase i st.shaders).length = st.items.length - 1 := by
    rw [vecErase_length st.shaders i hi']; omega
  have hgetDs : st.shaders.getD i 0 = st.shaders.get ⟨i, hi'⟩ := by
    rw [List.getD_eq_getElem _ _ hi']; rfl
  have hzlen : i < (st.items.zip st.shaders).length := by
    rw [List.length_zip]; omega
  simp only [Cache.moveAll]
  refine ⟨?_, ?_, ?_, ?_⟩
  · have h1 : (Cache.vecInsert dest (src.get ⟨j, hj⟩) (Cache.vecErase i st.items)).Perm
        (src.get ⟨j, hj⟩ :: Cache.vecErase i st.items) :=
      vecInsert_perm _ dest _ (by omega)
    exact h1.trans (hx ▸ cons_get_vecErase_perm st.items i hi)
  · rw [vecInsert_length _ dest _ (by omega), vecInsert_length _ dest _ (by omega),
      heleni, helens]
  · rw [vecInsert_length _ dest _ (by omega), heleni]
    omega
  · rw [vecInsert_zip _ _ dest _ _ (by omega) (by omega),
      vecErase_zip st.items st.shaders i hlen.symm]
    have h1 : (Cache.vecInsert dest (src.get ⟨j, hj⟩, st.shaders.getD i 0)
          (Cache.vecErase i (st.items.zip st.shaders))).Perm
        ((src.get ⟨j, hj⟩, st.shaders.getD i 0)
          :: Cache.vecErase i (st.items.zip st.shaders)) := by
      apply vecInsert_perm
      rw [vecErase_length _ i hzlen, List.length_zip]
      omega
    have h2 : (src.get ⟨j, hj⟩, st.shaders.getD i 0)
        = (st.items.zip st.shaders).get ⟨i, hzlen⟩ := by
      rw [hx, hgetDs]
      simp [List.get_eq_getElem, List.getElem_zip]
    rw [h2] at h1 ⊢
    exact h1.trans (cons_get_vecErase_perm _ i hzlen)

/-- The inner reorder scan preserves the item multiset, the item–handle
pairing and the alignment. -/
theorem reorderScan_inv (src : List Cache.PipelineItem)
    (hnodup : (src.map (fun x => x.id)).Nodup) (i : Nat) :
    ∀ (fuel j : Nat) (st : Cache.CacheState),
      st.items.Perm src → st.shaders.length = st.items.length →
      i < st.items.length →
      (Cache.reorderScan src i st j fuel).items.Perm src ∧
      (Cache.reorderScan src i st j fuel).shaders.length
        = (Cache.reorderScan src i st j fuel).items.length ∧
      i < (Cache.reorderScan src i st j fuel).items.length ∧
      ((Cache.reorderScan src i st j fuel).items.zip
          (Cache.reorderScan src i st j fuel).shaders).Perm
        (st.items.zip st.shaders) := by
  intro fuel
  induction fuel with
  | zero =>
    intro j st hperm hlen hi
    exact ⟨hperm, hlen.symm ▸ rfl, hi, List.Perm.refl _⟩
  | succ fuel ih =>
    intro j st hperm hlen hi
    rw [Cache.reorderScan]
    by_cases hj : j < src.length
    · rw [dif_pos hj]
      by_cases hb : ((st.items.getD i Cache.junkItem).id == (src.get ⟨j, hj⟩).id) = true
      · rw [if_pos hb]
        have hid : (st.items.getD i Cache.junkItem).id = (src.get ⟨j, hj⟩).id :=
          Nat.beq_eq ▸ (by exact of_decide_eq_true (by simpa [Nat.beq_eq] using hb))
        obtain ⟨hp1, hl1, hsz, hz1⟩ := moveAll_inv st src i j _ hlen hperm hnodup hi hj hid rfl
        set st1 := Cache.moveAll st i (if j > i then j - 1 else j) (src.get ⟨j, hj⟩) with hst1
        obtain ⟨hp2, hl2, hi2, hz2⟩ := ih (j + 1) st1 (hp1.trans hperm)
          (hl1.trans rfl) (by omega)
        exact ⟨hp2, hl2, hi2, hz2.trans hz1⟩
      · rw [if_neg hb]
        exact ih (j + 1) st hperm hlen hi
    · rw [dif_neg hj]
      exact ⟨hperm, hlen.symm ▸ rfl, hi, List.Perm.refl _⟩

/-- The outer reorder loop preserves the item multiset, the item–handle
pairing and the alignment. -/
theorem reorderGo_inv (src : List Cache.PipelineItem)
    (hnodup : (src.map (fun x => x.id)).Nodup) :
    ∀ (fuel i : Nat) (st : Cache.CacheState),
      st.items.Perm src → st.shaders.length = st.items.length →
      (Cache.reorderGo src st i fuel).items.Perm src ∧
      (Cache.reorderGo src st i fuel).shaders.length
        = (Cache.reorderGo src st i fuel).items.length ∧
      ((Cache.reorderGo src st i fuel).items.zip
          (Cache.reorderGo src st i fuel).shaders).Perm
        (st.items.zip st.shaders) := by
  intro fuel
  induction fuel with
  | zero =>
    intro i st hperm hlen
    exact ⟨hperm, hlen.symm ▸ rfl, List.Perm.refl _⟩
  | succ fuel ih =>
    intro i st hperm hlen
    rw [Cache.reorderGo]
    by_cases h : i < st.items.length
    · rw [dif_pos h]
      by_cases hb : ((src.getD i Cache.junkItem).id == (st.items.get ⟨i, h⟩).id) = true
      · rw [if_pos hb]
        exact ih (i + 1) st hperm hlen
      · rw [if_neg hb]
        obtain ⟨hp1, hl1, _, hz1⟩ :=
          reorderScan_inv src hnodup i src.length 0 st hperm hlen h
        obtain ⟨hp2, hl2, hz2⟩ := ih (i + 1) _ hp1 hl1
        exact ⟨hp2, hl2, hz2.trans hz1⟩
    · rw [dif_neg h]
      exact ⟨hperm, hlen.symm ▸ rfl, List.Perm.refl _⟩

/-- When every candidate identity is already cached, the addition scan is
a no-op that compiles nothing. -/
theorem cacheAddGo_nop (cs : Bool) :
    ∀ (l : List Cache.PipelineItem) (st : Cache.CacheState) (i : Nat),
      (∀ x ∈ l, ∃ c ∈ st.items, c.id = x.id) →
      Cache.cacheAddGo cs st i l = (st, 0) := by
  intro l
  induction l with
  | nil => intro st i _; rfl
  | cons x rest ih =>
    intro st i hall
    have hfound : (st.items.any (fun c => c.id == x.id)) = true := by
      obtain ⟨c, hc, he⟩ := hall x (List.mem_cons_self _ _)
      exact List.any_eq_true.mpr ⟨c, hc, by simp [he]⟩
    have h1 : Cache.cacheAdd1 cs st i x = (st, 0) := by
      rw [Cache.cacheAdd1, if_pos hfound]
    simp only [Cache.cacheAddGo, h1,
      ih st (i + 1) (fun y hy => hall y (List.mem_cons_of_mem x hy))]

/-- When every cached identity is still present in the candidate list, the
removal scan is a no-op. -/
theorem cacheRemoveGo_nop (src : List Cache.PipelineItem) :
    ∀ (fuel i : Nat) (st : Cache.CacheState),
      (∀ c ∈ st.items, ∃ x ∈ src, x.id = c.id) →
      Cache.cacheRemoveGo src st i fuel = st := by
  intro fuel
  induction fuel with
  | zero => intro i st _; rfl
  | succ fuel ih =>
    intro i st hall
    rw [Cache.cacheRemoveGo]
    by_cases h : i < st.items.length
    · rw [dif_pos h]
      have hfound : (src.any (fun x => x.id == (st.items.get ⟨i, h⟩).id)) = true := by
        obtain ⟨x, hx, he⟩ := hall (st.items.get ⟨i, h⟩) (List.get_mem st.items i h)
        exact List.any_eq_true.mpr ⟨x, hx, by simp [he]⟩
      rw [if_pos hfound]
      exact ih (i + 1) st hall
    · rw [dif_neg h]

/-- **C1 (amended)**: reconciling a shadow list against a permutation of
its own items performs no compilation, leaves the shadow identity
multiset equal to the source's, and preserves the multiset of
(item, program handle) pairs — the handles merely move with their items.
(The order-equality part of the original claim fails:
`mCache_reorder_counterexample`.) -/
theorem mCache_permutation_preserves_handles (cs : Bool) (st : Cache.CacheState)
    (src : List Cache.PipelineItem) (ms : Nat)
    (hlen : st.shaders.length = st.items.length)
    (hperm : st.items.Perm src)
    (hnodup : (src.map (fun x => x.id)).Nodup) :
    (Cache.mCache cs st src ms).compiles = 0 ∧
    (Cache.mCache cs st src ms).state.items.Perm src ∧
    ((Cache.mCache cs st src ms).state.items.zip
        (Cache.mCache cs st src ms).state.shaders).Perm
      (st.items.zip st.shaders) := by
  have hsz : st.items.length = src.length := hperm.length_eq
  have hphases : Cache.cachePhases cs st src
      = (Cache.reorderGo src st 0 st.items.length, 0) := by
    rw [Cache.cachePhases,
      cacheAddGo_nop cs src st 0
        (fun x hx => ⟨x, hperm.mem_iff.mpr hx, rfl⟩)]
    show (Cache.reorder src (Cache.cacheRemove src st), 0)
      = (Cache.reorderGo src st 0 st.items.length, 0)
    rw [Cache.cacheRemove,
      cacheRemoveGo_nop src st.items.length 0 st
        (fun c hc => ⟨c, hperm.subset hc, rfl⟩),
      Cache.reorder]
  obtain ⟨hp, hl, hz⟩ := reorderGo_inv src hnodup st.items.length 0 st hperm hlen
  rw [Cache.mCache, if_pos hsz]
  by_cases hms : ms > 500
  · rw [if_pos hms, hphases]
    exact ⟨rfl, hp, hz⟩
  · rw [if_neg hms]
    exact ⟨rfl, hperm, List.Perm.refl _⟩

/-- Witness for `mCache_permutation_preserves_handles` on the reversed
four-pass pipeline. -/
theorem mCache_permutation_preserves_handles_witness :
    (Cache.mCache true Cache.exShadow Cache.exReversed 600).compiles = 0 ∧
    (Cache.mCache true Cache.exShadow Cache.exReversed 600).state.items.Perm
      Cache.exReversed ∧
    ((Cache.mCache true Cache.exShadow Cache.exReversed 600).state.items.zip
        (Cache.mCache true Cache.exShadow Cache.exReversed 600).state.shaders).Perm
      (Cache.exShadow.items.zip Cache.exShadow.shaders) :=
  mCache_permutation_preserves_handles true Cache.exShadow Cache.exReversed 600
    (by decide) (by decide) (by decide)

/-! ### C4: include expansion terminates, cycles diagnosed once -/

/-- A successful `resolve` returns a path that exists in the project and
is not on the include stack. -/
theorem resolve_some_spec (fs : Includes.FS) (stack : List String) (name : String) :
    ∀ (ps : List String) (d d' : Nat) (ip : String) (c : List Includes.SrcLine),
      Includes.resolve fs stack name ps d = (some (ip, c), d') →
      fs.lookup ip = some c ∧ (stack.any (fun q => decide (q = ip))) = false := by
  intro ps
  induction ps with
  | nil => intro d d' ip c h; simp [Includes.resolve] at h
  | cons p rest ih =>
    intro d d' ip c h
    rw [Includes.resolve] at h
    rcases hl : fs.lookup (Includes.joinPath p name) with - | content
    · simp only [hl] at h
      exact ih _ d' ip c h
    · simp only [hl] at h
      by_cases hs : (stack.any (fun q => decide (q = Includes.joinPath p name))) = true
      · simp only [hs, Bool.not_true, Bool.false_eq_true, if_false] at h
        exact ih _ d' ip c h
      · have hs' : (stack.any (fun q => decide (q = Includes.joinPath p name))) = false :=
          eq_false_of_ne_true hs
        simp only [hs', Bool.not_false, if_true] at h
        rw [Prod.mk.injEq] at h
        obtain ⟨h1, -⟩ := h
        rw [Option.some.injEq, Prod.mk.injEq] at h1
        obtain ⟨he1, he2⟩ := h1
        subst he1
        subst he2
        exact ⟨hl, hs'⟩

/-- A path that `FS.lookup` finds belongs to `pathsOf`. -/
theorem lookup_mem_pathsOf (fs : Includes.FS) (ip : String)
    (c : List Includes.SrcLine) (h : fs.lookup ip = some c) :
    ip ∈ Includes.pathsOf fs := by
  rw [Includes.FS.lookup] at h
  rcases hf : fs.files.find? (fun q => decide (q.1 = ip)) with - | q
  · rw [hf] at h; simp at h
  · have hmem : q ∈ fs.files := List.mem_of_find?_eq_some hf
    have hq1 := List.find?_some hf
    have hq : q.1 = ip := by simpa using hq1
    rw [Includes.pathsOf]
    exact List.mem_dedup.mpr (hq ▸ List.mem_map_of_mem Prod.fst hmem)

/-- Pushing a path never increases the measure. -/
theorem measureOf_append_le (fs : Includes.FS) (stack : List String) (x : String) :
    Includes.measureOf fs (stack ++ [x]) ≤ Includes.measureOf fs stack := by
  rw [Includes.measureOf, Includes.measureOf]
  apply List.Sublist.length_le
  apply List.monotone_filter_right
  intro p hp
  simp only [List.any_append, Bool.not_or, Bool.and_eq_true] at hp
  exact hp.1

/-- Pushing a resolvable path strictly decreases the measure. -/
theorem measureOf_append_lt (fs : Includes.FS) (stack : List String) (ip : String)
    (hmem : ip ∈ Includes.pathsOf fs)
    (hnot : (stack.any (fun q => decide (q = ip))) = false) :
    Includes.measureOf fs (stack ++ [ip]) < Includes.measureOf fs stack := by
  rw [Includes.measureOf, Includes.measureOf]
  have hsub : List.Sublist
      ((Includes.pathsOf fs).filter
        (fun p => !(stack ++ [ip]).any (fun q => decide (q = p))))
      ((Includes.pathsOf fs).filter
        (fun p => !stack.any (fun q => decide (q = p)))) := by
    apply List.monotone_filter_right
    intro p hp
    simp only [List.any_append, Bool.not_or, Bool.and_eq_true] at hp
    exact hp.1
  apply Nat.lt_of_le_of_ne (hsub.length_le)
  intro heq
  have hipmem : ip ∈ (Includes.pathsOf fs).filter
      (fun p => !stack.any (fun q => decide (q = p))) := by
    rw [List.mem_filter]
    exact ⟨hmem, by simp [hnot]⟩
  have hipnot : ip ∉ (Includes.pathsOf fs).filter
      (fun p => !(stack ++ [ip]).any (fun q => decide (q = p))) := by
    rw [List.mem_filter]
    rintro ⟨-, hcl⟩
    simp [List.any_append] at hcl
  have := List.Sublist.eq_of_length hsub heq
  rw [this] at hipnot
  exact hipnot hipmem

/-- A successful `resolve` implies a positive measure. -/
theorem resolve_some_measure_pos (fs : Includes.FS) (stack : List String)
    (name : String) (ps : List String) (d d' : Nat) (ip : String)
    (c : List Includes.SrcLine)
    (h : Includes.resolve fs stack name ps d = (some (ip, c), d')) :
    1 ≤ Includes.measureOf fs stack := by
  obtain ⟨hl, hnot⟩ := resolve_some_spec fs stack name ps d d' ip c h
  have hmem : ip ∈ (Includes.pathsOf fs).filter
      (fun p => !stack.any (fun q => decide (q = p))) := by
    rw [List.mem_filter]
    exact ⟨lookup_mem_pathsOf fs ip c hl, by simp [hnot]⟩
  rw [Includes.measureOf]
  exact List.length_pos.mpr (fun hnil => by rw [hnil] at hmem; simp at hmem)

/-- Congruence for `expandLines` in the recursive expander: two expanders
that agree below the measure bound produce identical expansions from any
stack within the bound.  The key step: every recursive call happens on a
stack grown by a resolvable path, whose measure is strictly smaller. -/
theorem expandLines_congr (fs : Includes.FS) (paths : List String)
    (A B : List String → List Includes.SrcLine → Nat →
      List Includes.SrcLine × Nat × Nat) (k : Nat)
    (hAB : ∀ (stack' : List String) (c : List Includes.SrcLine) (b : Nat),
      Includes.measureOf fs stack' < k → A stack' c b = B stack' c b) :
    ∀ (src : List Includes.SrcLine) (stack : List String) (bias : Nat),
      Includes.measureOf fs stack ≤ k →
      Includes.expandLines fs paths A stack src bias
        = Includes.expandLines fs paths B stack src bias := by
  intro src
  induction src with
  | nil => intro stack bias _; rfl
  | cons line rest ihs =>
    intro stack bias hms
    match line with
    | .txt s =>
      rw [Includes.expandLines, Includes.expandLines, ihs stack bias hms]
    | .inc name =>
      rw [Includes.expandLines, Includes.expandLines]
      rcases hres : Includes.resolve fs stack name paths 0 with ⟨found, d0⟩
      match found with
      | none =>
        dsimp only
        rw [ihs stack bias hms]
      | some (ip, c) =>
        obtain ⟨hl, hnot⟩ := resolve_some_spec fs stack name paths 0 d0 ip c hres
        have hlt : Includes.measureOf fs (stack ++ [ip]) < k :=
          Nat.lt_of_lt_of_le
            (measureOf_append_lt fs stack ip (lookup_mem_pathsOf fs ip c hl) hnot)
            hms
        have hle : Includes.measureOf fs (stack ++ [ip]) ≤ k :=
          Nat.le_of_lt hlt
        dsimp only
        rw [hAB (stack ++ [ip]) c (Includes.nlCount c) hlt,
          ihs (stack ++ [ip]) _ hle]

/-- One-step stabilization: a depth at or above the measure gives the
same expansion as the next depth. -/
theorem expandDepth_stable (fs : Includes.FS) (paths : List String) :
    ∀ (k : Nat) (src : List Includes.SrcLine) (stack : List String) (bias : Nat),
      Includes.measureOf fs stack ≤ k →
      Includes.expandDepth fs paths k stack src bias
        = Includes.expandDepth fs paths (k + 1) stack src bias := by
  intro k
  induction k with
  | zero =>
    intro src stack bias h
    exact expandLines_congr fs paths _ (Includes.expandDepth fs paths 0) 0
      (fun stack' c b hlt => absurd hlt (by omega)) src stack bias h
  | succ m ihm =>
    intro src stack bias h
    exact expandLines_congr fs paths (Includes.expandDepth fs paths m)
      (Includes.expandDepth fs paths (m + 1)) (m + 1)
      (fun stack' c b hlt => ihm c stack' b (by omega)) src stack bias h

/-- Multi-step stabilization. -/
theorem expandDepth_stable_add (fs : Includes.FS) (paths : List String) :
    ∀ (d k : Nat) (src : List Includes.SrcLine) (stack : List String) (bias : Nat),
      Includes.measureOf fs stack ≤ k →
      Includes.expandDepth fs paths k stack src bias
        = Includes.expandDepth fs paths (k + d) stack src bias := by
  intro d
  induction d with
  | zero => intro k src stack bias _; rfl
  | succ n ih =>
    intro k src stack bias h
    rw [ih k src stack bias h,
      expandDepth_stable fs paths (k + n) src stack bias (by omega)]
    rfl

/-- **C4**: include expansion terminates on every include graph — the
expansion is a total function whose value stabilizes as soon as the depth
bound reaches the number of not-yet-visited project files (first
conjunct), the bound `m_includeCheck` runs with; and on the cyclic pair
`A.glsl` ⇄ `B.glsl` the expansion of `A` finishes with exactly one
"Recursive #include detected" diagnostic, the unexpanded directive
removed from the output on the cyclic branch (no `#include` line remains
anywhere in the result). -/
theorem includeCheck_cycle_terminates :
    (∀ (fs : Includes.FS) (paths : List String) (k₁ k₂ : Nat)
        (stack : List String) (src : List Includes.SrcLine) (bias : Nat),
        Includes.measureOf fs stack ≤ k₁ → Includes.measureOf fs stack ≤ k₂ →
        Includes.expandDepth fs paths k₁ stack src bias
          = Includes.expandDepth fs paths k₂ stack src bias) ∧
    Includes.m_includeCheck Includes.fsAB ["."] Includes.contentA
      = ([.txt "// A", .txt "// B", .txt "// A", .txt "", .txt "", .txt ""], 1, 2) ∧
    Includes.countInc (Includes.m_includeCheck Includes.fsAB ["."] Includes.contentA).1
      = 0 := by
  refine ⟨?_, by decide, by decide⟩
  intro fs paths k₁ k₂ stack src bias h₁ h₂
  rcases Nat.le_total k₁ k₂ with hk | hk
  · have : k₂ = k₁ + (k₂ - k₁) := by omega
    rw [this]
    exact expandDepth_stable_add fs paths (k₂ - k₁) k₁ src stack bias h₁
  · have : k₁ = k₂ + (k₁ - k₂) := by omega
    rw [this]
    exact (expandDepth_stable_add fs paths (k₁ - k₂) k₂ src stack bias h₂).symm

/-- Witness for `includeCheck_cycle_terminates`: on the cyclic project the
expansion value is already stable at depth 2 (= its file count). -/
theorem includeCheck_cycle_terminates_witness :
    Includes.expandDepth Includes.fsAB ["."] 2 [] Includes.contentA 0
      = Includes.expandDepth Includes.fsAB ["."] 3 [] Includes.contentA 0 :=
  includeCheck_cycle_terminates.1 Includes.fsAB ["."] 2 3 [] Includes.contentA 0
    (by decide) (by decide)
